import Mathlib

/-!
Verification development for the RAG agent repository.

The development shallowly embeds the three core components:
* the chunker `chunkText` from `src/scripts/ingest.js` (text as `List Char`,
  JS integer indices as `Int`, JS `indexOf` / `slice` / `trim` modelled
  explicitly, the `while` loop as a fuel-indexed recursion returning `none`
  exactly when the fuel runs out before the loop guard fails);
* the retrieval routine `retrieveKnowledge` from `src/services/ragService.js`
  (the vector index collaborator abstracted as its ranked match list);
* the request handler `chatWithAgent` from `src/controllers/agentController.js`
  (the language-model calls abstracted as inputs: the primary call's result
  object and the fallback call's output text; the handler's own control flow
  embedded exactly).
-/

namespace RagAgent

/-! ### Chunker: `chunkText` from `src/scripts/ingest.js` -/

def CHUNK_SIZE : Int := 500

def CHUNK_OVERLAP : Int := 100

/-- The minimum-length threshold of the final filter
`chunks.filter((chunk) => chunk.length > 10)`. -/
def MIN_CHUNK_LENGTH : Nat := 10

/-- Whitespace as trimmed by JS `String.prototype.trim`. -/
def isJsWhitespace (c : Char) : Bool :=
  c = ' ' || c = '\t' || c = '\n' || c = '\r' || c = '\x0b' || c = '\x0c' || c = ' '

/-- JS `String.prototype.trim`: drop whitespace from both ends. -/
def jsTrim (l : List Char) : List Char :=
  ((l.dropWhile isJsWhitespace).reverse.dropWhile isJsWhitespace).reverse

/-- Resolve one (possibly negative) JS `slice` index against a length. -/
def jsSliceIndex (len : Nat) (i : Int) : Nat :=
  if i < 0 then ((len : Int) + i).toNat else min i.toNat len

/-- JS `String.prototype.slice(start, stop)`. -/
def jsSlice (l : List Char) (start stop : Int) : List Char :=
  (l.take (jsSliceIndex l.length stop)).drop (jsSliceIndex l.length start)

/-- First index `i ≥ p` of `l` with `l[i] = c`, if any. -/
def findIdxFrom : List Char → Char → Nat → Option Nat
  | [], _, _ => none
  | x :: xs, c, 0 => if x = c then some 0 else (findIdxFrom xs c 0).map (· + 1)
  | _ :: xs, c, p + 1 => (findIdxFrom xs c p).map (· + 1)

/-- JS `String.prototype.indexOf(c, pos)` for a single character: the first
occurrence at an index `≥ max(pos, 0)`, or `-1` when there is none. -/
def jsIndexOf (l : List Char) (c : Char) (pos : Int) : Int :=
  match findIdxFrom l c pos.toNat with
  | some i => (i : Int)
  | none => -1

/-- The cut-point computation of one `chunkText` loop iteration
(`let endIndex = startIndex + chunkSize` followed by the newline / `。`
lookahead of lines 23–35 of `src/scripts/ingest.js`). -/
def computeEndIndex (text : List Char) (chunkSize : Int) (startIndex : Int) : Int :=
  let endIndex := startIndex + chunkSize
  if endIndex < (text.length : Int) then
    let nextNewline := jsIndexOf text '\n' endIndex
    let nextPeriod := jsIndexOf text '。' endIndex
    if nextNewline ≠ -1 ∧ nextNewline - endIndex < 50 then nextNewline
    else if nextPeriod ≠ -1 ∧ nextPeriod - endIndex < 50 then nextPeriod + 1
    else endIndex
  else endIndex

/-- The `while (startIndex < text.length)` loop of `chunkText`, recorded as the
list of (start offset, emitted chunk) pairs.  `fuel` bounds the number of
iterations; `none` means the loop guard was still true when the fuel ran out
(i.e. the model cannot certify termination within `fuel` iterations). -/
def chunkTextLoop (text : List Char) (chunkSize overlap : Int) :
    Nat → Int → Option (List (Int × List Char))
  | 0, startIndex =>
      if startIndex < (text.length : Int) then none else some []
  | fuel + 1, startIndex =>
      if startIndex < (text.length : Int) then
        let endIndex := computeEndIndex text chunkSize startIndex
        let chunk := jsTrim (jsSlice text startIndex endIndex)
        let nextStart :=
          let s := endIndex - overlap
          if s ≤ (chunk.length : Int) - chunkSize then s + overlap else s
        (chunkTextLoop text chunkSize overlap fuel nextStart).map
          (fun rest => (startIndex, chunk) :: rest)
      else some []

/-- One full run of the `chunkText` loop from `startIndex = 0`. -/
def chunkTextRun (text : List Char) (chunkSize overlap : Int) :
    Option (List (Int × List Char)) :=
  chunkTextLoop text chunkSize overlap (text.length + 1) 0

/-- `chunkText(text, chunkSize, overlap)`: the emitted chunks, filtered by the
minimum-length threshold. -/
def chunkText (text : List Char) (chunkSize overlap : Int) : Option (List (List Char)) :=
  (chunkTextRun text chunkSize overlap).map
    (fun run => (run.map Prod.snd).filter (fun chunk => MIN_CHUNK_LENGTH < chunk.length))

/-- The least index `p ≥ e` at which `l` holds the character `c`
(specification-level description of a successful forward character search). -/
def firstCharFrom (l : List Char) (c : Char) (e p : Nat) : Prop :=
  e ≤ p ∧ l.get? p = some c ∧ ∀ q, q < p → e ≤ q → l.get? q ≠ some c

instance (l : List Char) (c : Char) (e p : Nat) : Decidable (firstCharFrom l c e p) := by
  unfold firstCharFrom
  exact instDecidableAnd

/-! ### Knowledge retriever: `retrieveKnowledge` from `src/services/ragService.js` -/

def SENTINEL : String := "No relevant information found in the knowledge base."

structure MatchMetadata where
  text : String
  source : Option String
deriving DecidableEq

structure RetrievalMatch where
  metadata : MatchMetadata
deriving DecidableEq

/-- `match.metadata.source || 'unknown document'` (JS falsy: absent or empty). -/
def sourceNameOf (m : RetrievalMatch) : String :=
  match m.metadata.source with
  | some s => if s = "" then "unknown document" else s
  | none => "unknown document"

def CONTEXT_SEPARATOR : String := "\n\n---\n\n"

def formatMatchBlock (m : RetrievalMatch) : String :=
  "[source: " ++ sourceNameOf m ++ "]\n" ++ m.metadata.text

/-- `retrieveKnowledge`, given the query response of the vector index
(`none` models a response without a `matches` field). -/
def retrieveKnowledge (queryMatches : Option (List RetrievalMatch)) : String :=
  match queryMatches with
  | none => SENTINEL
  | some ms =>
    if ms.length = 0 then SENTINEL
    else String.intercalate CONTEXT_SEPARATOR (ms.map formatMatchBlock)

def TOP_K : Nat := 2

/-- The vector index collaborator, abstracted as its ranked match list for the
namespace: per its boundary contract (spec section 4.3), `query` with a given
`topK` returns the `topK` best-ranked matches, i.e. at most `topK` of them. -/
def queryIndex (rankedMatches : List RetrievalMatch) (topK : Nat) : List RetrievalMatch :=
  rankedMatches.take topK

/-- The retrieval pipeline: query the index with `topK = 2`, then format. -/
def retrieve (rankedMatches : List RetrievalMatch) : String :=
  retrieveKnowledge (some (queryIndex rankedMatches TOP_K))

/-- The formatted retrieval context as the spec words it: one block per match
of the form `[source: <source>]`, a newline, and the match text, where the
source is the stored one or the literal fallback when the metadata lacks one;
blocks joined by the distinct separator. -/
def formattedContextSpec (ms : List RetrievalMatch) : String :=
  String.intercalate "\n\n---\n\n"
    (ms.map (fun m =>
      "[source: " ++
        (match m.metadata.source with
         | some s => if s = "" then "unknown document" else s
         | none => "unknown document") ++
        "]\n" ++ m.metadata.text))

/-! ### Agent orchestrator: `chatWithAgent` from `src/controllers/agentController.js`

The two `generateText` calls are opaque collaborators: the primary call's
result object (`text` plus `steps`) and the fallback call's output text are
inputs of the embedding; the handler's own control flow is embedded exactly. -/

def APOLOGY : String :=
  "Sorry, I found information in the documentation, but couldn\x27t properly summarize it."

structure ContentPart where
  type : String
  result : Option String
  output : Option String
deriving DecidableEq

structure AgentStep where
  content : List ContentPart
deriving DecidableEq

/-- The primary `generateText` result: `result.text` (the empty string models
an absent direct answer, JS falsy) and `result.steps`. -/
structure GenResult where
  text : String
  steps : List AgentStep
deriving DecidableEq

/-- JS string conversion of a possibly-undefined value, as it happens in
`rawToolOutput += (part.result || part.output) + '\n'`. -/
def jsStringOrUndefined (v : Option String) : String :=
  match v with
  | some s => s
  | none => "undefined"

/-- `part.result || part.output` (JS falsy: absent or empty string). -/
def toolResultPayload (p : ContentPart) : Option String :=
  match p.result with
  | some s => if s = "" then p.output else some s
  | none => p.output

/-- The transcript scan of lines 49–59: concatenate every tool-result payload,
each followed by a newline. -/
def rawToolOutput (steps : List AgentStep) : String :=
  steps.foldl
    (fun acc step =>
      step.content.foldl
        (fun acc2 p =>
          if p.type = "tool-result" then
            acc2 ++ jsStringOrUndefined (toolResultPayload p) ++ "\n"
          else acc2)
        acc)
    ""

/-- How many fallback-synthesis model calls the handler issues for a given
primary result: one exactly when the primary text is empty and the transcript
scan found some tool output. -/
def fallbackCallCount (r : GenResult) : Nat :=
  if r.text = "" then (if rawToolOutput r.steps = "" then 0 else 1) else 0

/-- The final answer of the handler (lines 42–78): the primary text, else the
fallback call's output when there was tool output to polish, passed through
the final safety net. -/
def finalAnswerOf (r : GenResult) (summaryText : String) : String :=
  let fa := r.text
  let fa := if fa = "" then (if rawToolOutput r.steps = "" then fa else summaryText) else fa
  if fa = "" ∨ fa = "undefined" then APOLOGY else fa

inductive ResponseBody
  | errorBody (error : String)
  | chatBody (question answer : String)
deriving DecidableEq

structure HttpResponse where
  status : Nat
  body : ResponseBody
deriving DecidableEq

/-- The request handler `chatWithAgent`: validate the prompt, then answer.
`prompt = none` models a request body without a prompt field.  The second
component counts the model calls the handler issues (the primary
`generateText` call plus the possible fallback call); retrieval happens only
inside those calls. -/
def chatWithAgent (prompt : Option String) (r : GenResult) (summaryText : String) :
    HttpResponse × Nat :=
  match prompt with
  | none => (⟨400, ResponseBody.errorBody "Prompt is required"⟩, 0)
  | some p =>
    if p = "" then (⟨400, ResponseBody.errorBody "Prompt is required"⟩, 0)
    else (⟨200, ResponseBody.chatBody p (finalAnswerOf r summaryText)⟩, 1 + fallbackCallCount r)

/-! ### Ingestion assembly: `main` from `src/scripts/ingest.js` -/

structure ChunkInfo where
  text : List Char
  source : String
  chunkIndex : Nat
deriving DecidableEq

structure RecordMetadata where
  text : List Char
  source : String
deriving DecidableEq

/-- One Pinecone record as assembled on lines 105–112 (`values` holds the
embedding vector, opaque here; `embeddings[i]` can be absent on length
mismatch, hence the `Option`). -/
structure IndexRecord (E : Type) where
  id : String
  values : Option E
  metadata : RecordMetadata
deriving DecidableEq

/-- Lines 77–83: bind each chunk of one file to its source and chunk index. -/
def allChunksOfFile (file : String) (chunks : List (List Char)) : List ChunkInfo :=
  chunks.enum.map (fun p => { text := p.2, source := file, chunkIndex := p.1 })

/-- Lines 105–112: assemble the upserted records from the chunk infos and the
batch embeddings. -/
def assembleVectors {E : Type} (allChunks : List ChunkInfo) (embeddings : List E) :
    List (IndexRecord E) :=
  allChunks.enum.map (fun p =>
    { id := p.2.source ++ "-chunk-" ++ toString p.2.chunkIndex
      values := embeddings.get? p.1
      metadata := { text := p.2.text, source := p.2.source } })

/-- The per-file ingestion pipeline: chunk the content with the configured
parameters, then assemble the records. -/
def ingestRecords {E : Type} (file : String) (content : List Char) (embeddings : List E) :
    Option (List (IndexRecord E)) :=
  (chunkText content CHUNK_SIZE CHUNK_OVERLAP).map
    (fun chunks => assembleVectors (allChunksOfFile file chunks) embeddings)

/-! ### Basic lemmas about the JS string primitives -/

theorem findIdxFrom_some_sound :
    ∀ (l : List Char) (c : Char) (p i : Nat),
      findIdxFrom l c p = some i → p ≤ i ∧ l.get? i = some c := by
  intro l
  induction l with
  | nil => intro c p i h; simp [findIdxFrom] at h
  | cons x xs ih =>
    intro c p i h
    cases p with
    | zero =>
      by_cases hx : x = c
      · simp [findIdxFrom, hx] at h
        subst h
        simp [hx]
      · simp [findIdxFrom, hx] at h
        obtain ⟨j, hj, hji⟩ := h
        obtain ⟨-, hget⟩ := ih c 0 j hj
        subst hji
        simpa using hget
    | succ p' =>
      simp [findIdxFrom] at h
      obtain ⟨j, hj, hji⟩ := h
      obtain ⟨hle, hget⟩ := ih c p' j hj
      subst hji
      exact ⟨by omega, by simpa using hget⟩

theorem findIdxFrom_eq_some_of :
    ∀ (l : List Char) (c : Char) (p i : Nat),
      p ≤ i → l.get? i = some c →
      (∀ q, q < i → p ≤ q → l.get? q ≠ some c) →
      findIdxFrom l c p = some i := by
  intro l
  induction l with
  | nil => intro c p i _ hget _; simp at hget
  | cons x xs ih =>
    intro c p i hpi hget hmin
    cases p with
    | zero =>
      cases i with
      | zero =>
        simp at hget
        simp [findIdxFrom, hget]
      | succ i' =>
        have hx : ¬ x = c := by
          intro hx
          exact hmin 0 (Nat.succ_pos i') (Nat.zero_le 0) (by simp [hx])
        have hrec : findIdxFrom xs c 0 = some i' := by
          apply ih c 0 i' (Nat.zero_le i') (by simpa using hget)
          intro q hq _ hqc
          exact hmin (q + 1) (by omega) (Nat.zero_le _) (by simpa using hqc)
        simp [findIdxFrom, hx, hrec]
    | succ p' =>
      cases i with
      | zero => omega
      | succ i' =>
        have hrec : findIdxFrom xs c p' = some i' := by
          apply ih c p' i' (by omega) (by simpa using hget)
          intro q hq hpq hqc
          exact hmin (q + 1) (by omega) (by omega) (by simpa using hqc)
        simp [findIdxFrom, hrec]

theorem jsIndexOf_ge (l : List Char) (c : Char) (pos : Int)
    (h : jsIndexOf l c pos ≠ -1) : pos ≤ jsIndexOf l c pos := by
  unfold jsIndexOf at *
  cases hf : findIdxFrom l c pos.toNat with
  | none => simp [hf] at h
  | some i =>
    obtain ⟨hle, -⟩ := findIdxFrom_some_sound l c pos.toNat i hf
    simp only [hf]
    calc pos ≤ (pos.toNat : Int) := Int.self_le_toNat pos
    _ ≤ (i : Int) := by exact_mod_cast hle

theorem computeEndIndex_ge (text : List Char) (chunkSize startIndex : Int) :
    startIndex + chunkSize ≤ computeEndIndex text chunkSize startIndex := by
  simp only [computeEndIndex]
  split
  · split
    · rename_i hguard
      exact jsIndexOf_ge text '\n' _ hguard.1
    · split
      · rename_i hguard
        have := jsIndexOf_ge text '。' _ hguard.1
        omega
      · omega
  · omega

theorem computeEndIndex_le (text : List Char) (chunkSize startIndex : Int) :
    computeEndIndex text chunkSize startIndex ≤ startIndex + chunkSize + 50 := by
  simp only [computeEndIndex]
  split
  · split
    · rename_i hguard
      omega
    · split
      · rename_i hguard
        omega
      · omega
  · omega

theorem length_dropWhile_le (p : Char → Bool) (l : List Char) :
    (l.dropWhile p).length ≤ l.length := by
  induction l with
  | nil => simp
  | cons x xs ih =>
    by_cases h : p x
    · simp [List.dropWhile_cons, h]
      omega
    · simp [List.dropWhile_cons, h]

theorem jsTrim_length_le (l : List Char) : (jsTrim l).length ≤ l.length := by
  unfold jsTrim
  have h1 : (l.dropWhile isJsWhitespace).length ≤ l.length :=
    length_dropWhile_le isJsWhitespace l
  have h2 : ((l.dropWhile isJsWhitespace).reverse.dropWhile isJsWhitespace).length ≤
      (l.dropWhile isJsWhitespace).reverse.length :=
    length_dropWhile_le _ _
  simp only [List.length_reverse] at *
  omega

theorem jsSlice_length_le (l : List Char) (start stop : Int)
    (hs : 0 ≤ start) (hse : start ≤ stop) :
    ((jsSlice l start stop).length : Int) ≤ stop - start := by
  unfold jsSlice jsSliceIndex
  have h0 : ¬ start < 0 := by omega
  have h1 : ¬ stop < 0 := by omega
  simp only [h0, h1, if_false, List.length_drop, List.length_take]
  have hst : (start.toNat : Int) = start := Int.toNat_of_nonneg hs
  have hsp : (stop.toNat : Int) = stop := Int.toNat_of_nonneg (by omega)
  omega

/-! ### Loop invariants of `chunkTextLoop` -/

/-- With `0 ≤ overlap < chunkSize`, the next start index of one loop iteration
strictly advances past the current one (by at least `chunkSize - overlap`),
whatever the boundary adjustment and the anti-infinite-loop bump did. -/
theorem nextStart_gt (text : List Char) (chunkSize overlap startIndex : Int)
    (ho : 0 ≤ overlap) (hoc : overlap < chunkSize) :
    ∀ chunk : List Char,
      startIndex <
        (let s := computeEndIndex text chunkSize startIndex - overlap
         if s ≤ (chunk.length : Int) - chunkSize then s + overlap else s) := by
  intro chunk
  have hge := computeEndIndex_ge text chunkSize startIndex
  dsimp only
  split
  · omega
  · omega

theorem chunkTextLoop_complete (text : List Char) (chunkSize overlap : Int)
    (ho : 0 ≤ overlap) (hoc : overlap < chunkSize) :
    ∀ (fuel : Nat) (startIndex : Int),
      (text.length : Int) - startIndex < (fuel : Int) →
      ∃ run, chunkTextLoop text chunkSize overlap fuel startIndex = some run ∧
        (∀ p ∈ run, startIndex ≤ p.1) ∧
        run.Chain' (fun a b => a.1 < b.1) := by
  intro fuel
  induction fuel with
  | zero =>
    intro startIndex hfuel
    have hguard : ¬ startIndex < (text.length : Int) := by
      push_cast at hfuel
      omega
    exact ⟨[], by simp [chunkTextLoop, hguard], by simp, by simp⟩
  | succ fuel ih =>
    intro startIndex hfuel
    by_cases hguard : startIndex < (text.length : Int)
    · have hge := computeEndIndex_ge text chunkSize startIndex
      set e := computeEndIndex text chunkSize startIndex with he
      set chunk := jsTrim (jsSlice text startIndex e) with hchunk
      set ns :=
        (let s := e - overlap
         if s ≤ (chunk.length : Int) - chunkSize then s + overlap else s) with hns
      have hadv : startIndex < ns := by
        rw [hns]
        dsimp only
        split <;> omega
      obtain ⟨rest, hrest, hub, hchain⟩ := ih ns (by push_cast at hfuel ⊢; omega)
      refine ⟨(startIndex, chunk) :: rest, ?_, ?_, ?_⟩
      · simp only [chunkTextLoop, if_pos hguard]
        rw [← he, ← hchunk, ← hns, hrest]
        rfl
      · intro p hp
        rcases List.mem_cons.mp hp with h | h
        · simp [h]
        · have := hub p h
          omega
      · refine List.chain'_cons'.mpr ⟨?_, hchain⟩
        intro y hy
        have hmem : y ∈ rest := List.mem_of_mem_head? hy
        have := hub y hmem
        simp only []
        omega
    · exact ⟨[], by simp [chunkTextLoop, hguard], by simp, by simp⟩

/-- Every chunk emitted by the loop, run from a nonnegative start index with
`0 ≤ overlap < chunkSize`, has length at most `chunkSize + 50`. -/
theorem chunkTextLoop_chunk_bound (text : List Char) (chunkSize overlap : Int)
    (ho : 0 ≤ overlap) (hoc : overlap < chunkSize) :
    ∀ (fuel : Nat) (startIndex : Int) (run : List (Int × List Char)),
      0 ≤ startIndex →
      chunkTextLoop text chunkSize overlap fuel startIndex = some run →
      ∀ p ∈ run, (p.2.length : Int) ≤ chunkSize + 50 := by
  intro fuel
  induction fuel with
  | zero =>
    intro startIndex run hstart hrun p hp
    by_cases hguard : startIndex < (text.length : Int)
    · simp [chunkTextLoop, hguard] at hrun
    · simp [chunkTextLoop, hguard] at hrun
      subst hrun
      simp at hp
  | succ fuel ih =>
    intro startIndex run hstart hrun p hp
    by_cases hguard : startIndex < (text.length : Int)
    · simp only [chunkTextLoop, if_pos hguard, Option.map_eq_some'] at hrun
      obtain ⟨rest, hrest, hcons⟩ := hrun
      subst hcons
      have hge := computeEndIndex_ge text chunkSize startIndex
      have hle := computeEndIndex_le text chunkSize startIndex
      rcases List.mem_cons.mp hp with h | h
      · subst h
        simp only []
        have hslice : ((jsSlice text startIndex
            (computeEndIndex text chunkSize startIndex)).length : Int) ≤
            computeEndIndex text chunkSize startIndex - startIndex :=
          jsSlice_length_le text startIndex _ hstart (by omega)
        have htrim := jsTrim_length_le
          (jsSlice text startIndex (computeEndIndex text chunkSize startIndex))
        omega
      · refine ih _ rest ?_ hrest p h
        split <;> omega
    · simp [chunkTextLoop, hguard] at hrun
      subst hrun
      simp at hp

/-! ### Characterization of the forward character search -/

theorem jsIndexOf_eq_coe_of_firstCharFrom (l : List Char) (c : Char) (pos : Int) (p : Nat)
    (h : firstCharFrom l c pos.toNat p) : jsIndexOf l c pos = (p : Int) := by
  obtain ⟨hle, hget, hmin⟩ := h
  have : findIdxFrom l c pos.toNat = some p :=
    findIdxFrom_eq_some_of l c pos.toNat p hle hget hmin
  simp [jsIndexOf, this]

theorem jsIndexOf_found_char (l : List Char) (c : Char) (pos : Int)
    (h : jsIndexOf l c pos ≠ -1) :
    ∃ i : Nat, jsIndexOf l c pos = (i : Int) ∧ pos.toNat ≤ i ∧ l.get? i = some c := by
  unfold jsIndexOf at *
  cases hf : findIdxFrom l c pos.toNat with
  | none => simp [hf] at h
  | some i =>
    obtain ⟨hle, hget⟩ := findIdxFrom_some_sound l c pos.toNat i hf
    exact ⟨i, by simp [hf], hle, hget⟩

/-! ### Enumeration lemmas for the ingestion assembly -/

theorem allChunksOfFile_get? (file : String) (chunks : List (List Char)) (i : Nat) :
    (allChunksOfFile file chunks).get? i =
      (chunks.get? i).map (fun ch => ⟨ch, file, i⟩) := by
  simp only [allChunksOfFile, List.get?_eq_getElem?, List.getElem?_map,
    List.getElem?_enum, Option.map_map]
  rfl

theorem assembleVectors_get? {E : Type} (cs : List ChunkInfo) (emb : List E) (i : Nat) :
    (assembleVectors cs emb).get? i =
      (cs.get? i).map (fun c =>
        ⟨c.source ++ "-chunk-" ++ toString c.chunkIndex, emb.get? i,
          ⟨c.text, c.source⟩⟩) := by
  simp only [assembleVectors, List.get?_eq_getElem?, List.getElem?_map,
    List.getElem?_enum, Option.map_map]
  rfl

/-! ### Claim theorems -/

/-- C1: for every text and all chunk sizes `c` and overlaps `o` with
`0 ≤ o < c`, `chunkText(text, c, o)` terminates (the fuelled loop completes
within `text.length + 1` iterations), and the sequence of start offsets at
which successive chunks are cut is strictly increasing, boundary adjustments
included. -/
theorem c1_chunk_starts_strictly_increase
    (text : List Char) (chunkSize overlap : Int)
    (ho : 0 ≤ overlap) (hoc : overlap < chunkSize) :
    ∃ run, chunkTextRun text chunkSize overlap = some run ∧
      run.Chain' (fun a b => a.1 < b.1) ∧
      chunkText text chunkSize overlap =
        some ((run.map Prod.snd).filter (fun chunk => MIN_CHUNK_LENGTH < chunk.length)) := by
  obtain ⟨run, hrun, -, hchain⟩ :=
    chunkTextLoop_complete text chunkSize overlap ho hoc (text.length + 1) 0
      (by push_cast; omega)
  have hrun' : chunkTextRun text chunkSize overlap = some run := hrun
  exact ⟨run, hrun', hchain, by simp [chunkText, hrun']⟩

theorem c1_chunk_starts_strictly_increase_witness :
    (0 : Int) ≤ 100 ∧ (100 : Int) < 500 ∧
    (∃ run, chunkTextRun "a tiny document".toList 500 100 = some run ∧
      run.Chain' (fun a b => a.1 < b.1) ∧
      chunkText "a tiny document".toList 500 100 =
        some ((run.map Prod.snd).filter (fun chunk => MIN_CHUNK_LENGTH < chunk.length))) :=
  ⟨by decide, by decide,
    c1_chunk_starts_strictly_increase "a tiny document".toList 500 100
      (by decide) (by decide)⟩

/-- C4, counterexample: with text `abcd。efg\nhij`, chunk size 3 and start 0,
the nominal end is 3; the nearest break in the 50-unit lookahead window is the
sentence terminator `。` at offset 4 (offset 3 holds `d`), yet the chunker cuts
at offset 8 — the newline — neither at the nearest break nor just after it.
The code prefers the next newline over a strictly nearer `。`. -/
theorem c4_counterexample_nearest_break_not_used :
    ("abcd。efg\nhij".toList.get? 3 ≠ some '\n') ∧
    ("abcd。efg\nhij".toList.get? 3 ≠ some '。') ∧
    ("abcd。efg\nhij".toList.get? 4 = some '。') ∧
    ((4 : Int) - (0 + 3) < 50) ∧
    ("abcd。efg\nhij".toList.get? 8 = some '\n') ∧
    computeEndIndex "abcd。efg\nhij".toList 3 0 = 8 ∧
    ((8 : Int) ≠ 4 ∧ (8 : Int) ≠ 4 + 1) := by
  decide

/-- C4, amended: before cutting, when the nominal end `startIndex + chunkSize`
lies inside the text, the chunker cuts at the first newline within 50 units
past the nominal end if there is one; otherwise just after the first `。`
within 50 units if there is one; otherwise at the exact boundary.  The newline
is preferred even when a `。` is nearer, and only `\n` and `。` are recognized
as break characters. -/
theorem c4_lookahead_cut_rule_amended
    (text : List Char) (chunkSize startIndex : Int)
    (_hs : 0 ≤ startIndex) (_hc : 0 ≤ chunkSize)
    (hin : startIndex + chunkSize < (text.length : Int)) :
    (∀ p : Nat, firstCharFrom text '\n' (startIndex + chunkSize).toNat p →
        (p : Int) - (startIndex + chunkSize) < 50 →
        computeEndIndex text chunkSize startIndex = p)
    ∧ (∀ p : Nat,
        (∀ q : Nat, (startIndex + chunkSize).toNat ≤ q → text.get? q = some '\n' →
          50 ≤ (q : Int) - (startIndex + chunkSize)) →
        firstCharFrom text '。' (startIndex + chunkSize).toNat p →
        (p : Int) - (startIndex + chunkSize) < 50 →
        computeEndIndex text chunkSize startIndex = p + 1)
    ∧ ((∀ q : Nat, (startIndex + chunkSize).toNat ≤ q → text.get? q = some '\n' →
          50 ≤ (q : Int) - (startIndex + chunkSize)) →
       (∀ q : Nat, (startIndex + chunkSize).toNat ≤ q → text.get? q = some '。' →
          50 ≤ (q : Int) - (startIndex + chunkSize)) →
       computeEndIndex text chunkSize startIndex = startIndex + chunkSize) := by
  refine ⟨?_, ?_, ?_⟩
  · intro p hfirst hwin
    have hnn : jsIndexOf text '\n' (startIndex + chunkSize) = (p : Int) :=
      jsIndexOf_eq_coe_of_firstCharFrom text '\n' _ p hfirst
    simp only [computeEndIndex]
    rw [if_pos hin, hnn]
    rw [if_pos ⟨by omega, by omega⟩]
  · intro p hnonl hfirst hwin
    have hguard1 : ¬ (jsIndexOf text '\n' (startIndex + chunkSize) ≠ -1 ∧
        jsIndexOf text '\n' (startIndex + chunkSize) - (startIndex + chunkSize) < 50) := by
      rintro ⟨hne, hlt⟩
      obtain ⟨i, hi, hile, hich⟩ := jsIndexOf_found_char text '\n' _ hne
      have := hnonl i hile hich
      omega
    have hnp : jsIndexOf text '。' (startIndex + chunkSize) = (p : Int) :=
      jsIndexOf_eq_coe_of_firstCharFrom text '。' _ p hfirst
    simp only [computeEndIndex]
    rw [if_pos hin, if_neg hguard1, hnp]
    rw [if_pos ⟨by omega, by omega⟩]
  · intro hnonl hnope
    have hguard1 : ¬ (jsIndexOf text '\n' (startIndex + chunkSize) ≠ -1 ∧
        jsIndexOf text '\n' (startIndex + chunkSize) - (startIndex + chunkSize) < 50) := by
      rintro ⟨hne, hlt⟩
      obtain ⟨i, hi, hile, hich⟩ := jsIndexOf_found_char text '\n' _ hne
      have := hnonl i hile hich
      omega
    have hguard2 : ¬ (jsIndexOf text '。' (startIndex + chunkSize) ≠ -1 ∧
        jsIndexOf text '。' (startIndex + chunkSize) - (startIndex + chunkSize) < 50) := by
      rintro ⟨hne, hlt⟩
      obtain ⟨i, hi, hile, hich⟩ := jsIndexOf_found_char text '。' _ hne
      have := hnope i hile hich
      omega
    simp only [computeEndIndex]
    rw [if_pos hin, if_neg hguard1, if_neg hguard2]

theorem c4_lookahead_cut_rule_amended_witness :
    (0 : Int) ≤ 0 ∧ (0 : Int) ≤ 3 ∧ ((0 : Int) + 3 < ("abcd。efg\nhij".toList.length : Int)) ∧
    firstCharFrom "abcd。efg\nhij".toList '\n' ((0 : Int) + 3).toNat 8 ∧
    ((8 : Int) - (0 + 3) < 50) ∧
    computeEndIndex "abcd。efg\nhij".toList 3 0 = 8 :=
  ⟨by decide, by decide, by decide, by decide, by decide,
    (c4_lookahead_cut_rule_amended "abcd。efg\nhij".toList 3 0
      (by decide) (by decide) (by decide)).1 8 (by decide) (by decide)⟩

/-- C6: every chunk returned by `chunkText` has length strictly greater than
the minimum-length threshold (10); shorter or equal chunks are never
returned, whatever the text, chunk size and overlap. -/
theorem c6_min_chunk_length
    (text : List Char) (chunkSize overlap : Int) (chunks : List (List Char))
    (hchunks : chunkText text chunkSize overlap = some chunks) :
    ∀ chunk ∈ chunks, MIN_CHUNK_LENGTH < chunk.length := by
  intro chunk hchunk
  simp only [chunkText, Option.map_eq_some'] at hchunks
  obtain ⟨run, hrun, hfil⟩ := hchunks
  subst hfil
  have := (List.mem_filter.mp hchunk).2
  simpa using this

theorem c6_min_chunk_length_witness :
    chunkText "abcdefghijklmnop".toList 12 2 = some ["abcdefghijkl".toList] ∧
    (∀ chunk ∈ ["abcdefghijkl".toList], MIN_CHUNK_LENGTH < chunk.length) :=
  ⟨by decide,
    c6_min_chunk_length "abcdefghijklmnop".toList 12 2 ["abcdefghijkl".toList] (by decide)⟩

/-- C10: with `0 ≤ overlap < chunkSize`, every chunk returned by `chunkText`
has length at most `chunkSize + 50`: the boundary lookahead extends a chunk
past the nominal size by at most the 50-unit window, and trimming only
shortens it. -/
theorem c10_chunk_length_at_most_size_plus_50
    (text : List Char) (chunkSize overlap : Int) (chunks : List (List Char))
    (ho : 0 ≤ overlap) (hoc : overlap < chunkSize)
    (hchunks : chunkText text chunkSize overlap = some chunks) :
    ∀ chunk ∈ chunks, (chunk.length : Int) ≤ chunkSize + 50 := by
  intro chunk hchunk
  simp only [chunkText, Option.map_eq_some'] at hchunks
  obtain ⟨run, hrun, hfil⟩ := hchunks
  subst hfil
  have hmem : chunk ∈ run.map Prod.snd := (List.mem_filter.mp hchunk).1
  obtain ⟨p, hp, hpe⟩ := List.mem_map.mp hmem
  have := chunkTextLoop_chunk_bound text chunkSize overlap ho hoc
    (text.length + 1) 0 run (le_refl 0) hrun p hp
  rw [← hpe]
  exact this

theorem c10_chunk_length_at_most_size_plus_50_witness :
    (0 : Int) ≤ 2 ∧ (2 : Int) < 12 ∧
    chunkText "abcdefghijklmnopqr".toList 12 2 = some ["abcdefghijkl".toList] ∧
    (∀ chunk ∈ ["abcdefghijkl".toList], (chunk.length : Int) ≤ 12 + 50) :=
  ⟨by decide, by decide, by decide,
    c10_chunk_length_at_most_size_plus_50 "abcdefghijklmnopqr".toList 12 2
      ["abcdefghijkl".toList] (by decide) (by decide) (by decide)⟩

/-- C2, counterexample: a request whose primary loop ends without direct text
(`result.text` empty) but whose transcript holds no tool-result payload makes
the handler issue zero fallback model calls, not exactly one, and return the
fixed apology — discarding the summary output the claimed fallback call would
have produced. -/
theorem c2_counterexample_no_fallback_without_tool_output :
    (GenResult.mk "" []).text = "" ∧
    fallbackCallCount (GenResult.mk "" []) = 0 ∧
    fallbackCallCount (GenResult.mk "" []) ≠ 1 ∧
    finalAnswerOf (GenResult.mk "" []) "a perfectly good summary" = APOLOGY := by
  refine ⟨rfl, rfl, by decide, ?_⟩
  decide

/-- C2, amended: when the primary loop ends without direct text, the handler
issues exactly one additional (fallback) model call if and only if the
transcript scan found at least one tool-result payload; in that case the
fallback output — or the fixed apology when that output is empty or the
literal placeholder — becomes the final answer, and with no tool-result
payload no additional call is made and the apology is returned directly. -/
theorem c2_fallback_single_call_amended (r : GenResult) (summaryText : String)
    (htext : r.text = "") :
    (rawToolOutput r.steps ≠ "" →
      fallbackCallCount r = 1 ∧
      finalAnswerOf r summaryText =
        (if summaryText = "" ∨ summaryText = "undefined" then APOLOGY else summaryText))
    ∧ (rawToolOutput r.steps = "" →
      fallbackCallCount r = 0 ∧ finalAnswerOf r summaryText = APOLOGY) := by
  constructor
  · intro hraw
    constructor
    · simp [fallbackCallCount, htext, hraw]
    · unfold finalAnswerOf
      rw [htext]
      dsimp only
      rw [if_pos rfl, if_neg hraw]
  · intro hraw
    constructor
    · simp [fallbackCallCount, htext, hraw]
    · unfold finalAnswerOf
      rw [htext]
      dsimp only
      rw [if_pos rfl, if_pos hraw, if_pos (Or.inl rfl)]

theorem c2_fallback_single_call_amended_witness :
    (GenResult.mk "" [AgentStep.mk [ContentPart.mk "tool-result" (some "doc text") none]]).text
      = "" ∧
    rawToolOutput
      (GenResult.mk "" [AgentStep.mk [ContentPart.mk "tool-result" (some "doc text") none]]).steps
      ≠ "" ∧
    fallbackCallCount
      (GenResult.mk "" [AgentStep.mk [ContentPart.mk "tool-result" (some "doc text") none]])
      = 1 ∧
    finalAnswerOf
      (GenResult.mk "" [AgentStep.mk [ContentPart.mk "tool-result" (some "doc text") none]])
      "polished answer"
      = (if "polished answer" = "" ∨ "polished answer" = "undefined"
         then APOLOGY else "polished answer") :=
  ⟨rfl, by decide,
    ((c2_fallback_single_call_amended
        (GenResult.mk "" [AgentStep.mk [ContentPart.mk "tool-result" (some "doc text") none]])
        "polished answer" rfl).1 (by decide)).1,
    ((c2_fallback_single_call_amended
        (GenResult.mk "" [AgentStep.mk [ContentPart.mk "tool-result" (some "doc text") none]])
        "polished answer" rfl).1 (by decide)).2⟩

/-- C3: the retrieval pipeline never returns content derived from more than
`TOP_K = 2` index matches — its output only depends on the two best-ranked
matches, of which the index query returns at most `TOP_K` — and when the index
response has no matches field or zero matches for the namespace, the sentinel
string is returned rather than an error. -/
theorem c3_retrieve_topk_and_sentinel :
    (∀ rankedMatches : List RetrievalMatch,
      retrieve rankedMatches = retrieve (rankedMatches.take TOP_K))
    ∧ (∀ rankedMatches : List RetrievalMatch,
      (queryIndex rankedMatches TOP_K).length ≤ TOP_K)
    ∧ retrieveKnowledge none = SENTINEL
    ∧ retrieveKnowledge (some []) = SENTINEL := by
  refine ⟨?_, ?_, rfl, rfl⟩
  · intro rankedMatches
    simp [retrieve, queryIndex, List.take_take]
  · intro rankedMatches
    unfold queryIndex
    exact List.length_take_le TOP_K rankedMatches

theorem safety_net_ne_empty (fa : String) :
    (if fa = "" ∨ fa = "undefined" then APOLOGY else fa) ≠ "" := by
  split
  · decide
  · rename_i h
    intro he
    exact h (Or.inl he)

theorem finalAnswerOf_ne_empty (r : GenResult) (summaryText : String) :
    finalAnswerOf r summaryText ≠ "" := by
  unfold finalAnswerOf
  dsimp only
  exact safety_net_ne_empty _

theorem finalAnswerOf_gap_apology (r : GenResult) (summaryText : String)
    (htext : r.text = "" ∨ r.text = "undefined")
    (hsummary : summaryText = "" ∨ summaryText = "undefined") :
    finalAnswerOf r summaryText = APOLOGY := by
  rcases htext with h | h
  · unfold finalAnswerOf
    rw [h]
    dsimp only
    rw [if_pos rfl]
    rcases eq_or_ne (rawToolOutput r.steps) "" with hraw | hraw
    · rw [if_pos hraw, if_pos (Or.inl rfl)]
    · rw [if_neg hraw]
      rcases hsummary with hs | hs
      · rw [hs, if_pos (Or.inl rfl)]
      · rw [hs, if_pos (Or.inr rfl)]
  · unfold finalAnswerOf
    rw [h]
    dsimp only
    rw [if_neg (by decide : ¬("undefined" : String) = "")]
    rw [if_pos (Or.inr rfl)]

/-- C5: for every validated chat request (non-empty prompt), the handler sends
a 200 response whose answer is a non-empty string; when both the primary loop
and the fallback synthesis yield nothing, or yield the literal placeholder
string, the fixed apology string is returned instead of an error. -/
theorem c5_answer_always_nonempty (p : String) (r : GenResult) (summaryText : String)
    (hp : p ≠ "") :
    (chatWithAgent (some p) r summaryText).1.status = 200 ∧
    ∃ a, (chatWithAgent (some p) r summaryText).1.body = ResponseBody.chatBody p a ∧
      a ≠ "" ∧
      ((r.text = "" ∨ r.text = "undefined") →
        (summaryText = "" ∨ summaryText = "undefined") → a = APOLOGY) := by
  refine ⟨by simp [chatWithAgent, hp], finalAnswerOf r summaryText,
    by simp [chatWithAgent, hp], finalAnswerOf_ne_empty r summaryText, ?_⟩
  intro htext hsummary
  exact finalAnswerOf_gap_apology r summaryText htext hsummary

theorem c5_answer_always_nonempty_witness :
    "What do we use?" ≠ "" ∧
    (chatWithAgent (some "What do we use?") (GenResult.mk "" []) "").1.status = 200 ∧
    (∃ a, (chatWithAgent (some "What do we use?") (GenResult.mk "" []) "").1.body
        = ResponseBody.chatBody "What do we use?" a ∧
      a ≠ "" ∧
      (((GenResult.mk "" []).text = "" ∨ (GenResult.mk "" []).text = "undefined") →
        (("" : String) = "" ∨ ("" : String) = "undefined") → a = APOLOGY)) :=
  ⟨by decide,
    (c5_answer_always_nonempty "What do we use?" (GenResult.mk "" []) "" (by decide)).1,
    (c5_answer_always_nonempty "What do we use?" (GenResult.mk "" []) "" (by decide)).2⟩

/-- C7: each assembled index record derives its id deterministically as
`<source>-chunk-<chunkIndex>` and persists exactly `{text, source}` as
metadata; the id list is independent of the embedding batch, so re-ingesting
an unchanged document yields records with the same ids as before rather than
duplicates. -/
theorem c7_record_id_and_metadata {E : Type} (file : String) (chunks : List (List Char))
    (emb emb' : List E) :
    (∀ (i : Nat) (ch : List Char) (r : IndexRecord E),
      chunks.get? i = some ch →
      (assembleVectors (allChunksOfFile file chunks) emb).get? i = some r →
      r.id = file ++ "-chunk-" ++ toString i ∧
      r.metadata = RecordMetadata.mk ch file)
    ∧ ((assembleVectors (allChunksOfFile file chunks) emb).map (fun r => r.id) =
       (assembleVectors (allChunksOfFile file chunks) emb').map (fun r => r.id)) := by
  constructor
  · intro i ch r hch hr
    rw [assembleVectors_get?, allChunksOfFile_get?, hch] at hr
    simp only [Option.map_some', Option.some.injEq] at hr
    rw [← hr]
    exact ⟨rfl, rfl⟩
  · apply List.ext_get?_iff.mpr
    intro n
    rw [List.get?_map, List.get?_map, assembleVectors_get?, assembleVectors_get?]
    cases (allChunksOfFile file chunks).get? n <;> rfl

theorem c7_record_id_and_metadata_witness :
    (["abc".toList].get? 0 = some "abc".toList) ∧
    ((assembleVectors (allChunksOfFile "doc.md" ["abc".toList]) [(0 : Nat)]).get? 0 =
      some (IndexRecord.mk "doc.md-chunk-0" (some 0)
        (RecordMetadata.mk "abc".toList "doc.md"))) ∧
    ((IndexRecord.mk "doc.md-chunk-0" (some 0)
        (RecordMetadata.mk "abc".toList "doc.md") : IndexRecord Nat).id =
          "doc.md" ++ "-chunk-" ++ toString 0 ∧
      (IndexRecord.mk "doc.md-chunk-0" (some 0)
        (RecordMetadata.mk "abc".toList "doc.md") : IndexRecord Nat).metadata =
          RecordMetadata.mk "abc".toList "doc.md") ∧
    ((assembleVectors (allChunksOfFile "doc.md" ["abc".toList]) [(0 : Nat)]).map
        (fun r => r.id) =
      (assembleVectors (allChunksOfFile "doc.md" ["abc".toList]) [(1 : Nat)]).map
        (fun r => r.id)) :=
  ⟨by decide, by decide,
    (c7_record_id_and_metadata "doc.md" ["abc".toList] [0] [1]).1 0 "abc".toList
      (IndexRecord.mk "doc.md-chunk-0" (some 0) (RecordMetadata.mk "abc".toList "doc.md"))
      (by decide) (by decide),
    (c7_record_id_and_metadata "doc.md" ["abc".toList] [0] [1]).2⟩

/-- C8: every chat request whose body has a missing or empty prompt is
answered with status 400 and the body `{error: 'Prompt is required'}`, and the
handler issues no model call (hence no retrieval either, since retrieval only
runs inside the model's tool loop). -/
theorem c8_missing_prompt_rejected (prompt : Option String) (r : GenResult)
    (summaryText : String) (h : prompt = none ∨ prompt = some "") :
    chatWithAgent prompt r summaryText =
      (HttpResponse.mk 400 (ResponseBody.errorBody "Prompt is required"), 0) := by
  rcases h with h | h
  · subst h
    rfl
  · subst h
    simp [chatWithAgent]

theorem c8_missing_prompt_rejected_witness :
    ((none : Option String) = none ∨ (none : Option String) = some "") ∧
    chatWithAgent none (GenResult.mk "some text" []) "summary" =
      (HttpResponse.mk 400 (ResponseBody.errorBody "Prompt is required"), 0) :=
  ⟨Or.inl rfl,
    c8_missing_prompt_rejected none (GenResult.mk "some text" []) "summary" (Or.inl rfl)⟩

/-- C9: for every non-empty match list returned by the index, the formatted
retrieval context is exactly one block per match of the form
`[source: <source>]`, a newline, and the match text — with the literal
fallback source name when the metadata lacks one — joined by the distinct
separator `\n\n---\n\n`, as described by `formattedContextSpec`. -/
theorem c9_format_context (ms : List RetrievalMatch) (h : ms ≠ []) :
    retrieveKnowledge (some ms) = formattedContextSpec ms := by
  have hlen : ¬ ms.length = 0 := by simpa using h
  show (if ms.length = 0 then SENTINEL
        else String.intercalate CONTEXT_SEPARATOR (ms.map formatMatchBlock)) =
      formattedContextSpec ms
  rw [if_neg hlen]
  rfl

theorem c9_format_context_witness :
    ([RetrievalMatch.mk (MatchMetadata.mk "Next.js App Router" (some "frontend-guidelines.md")),
      RetrievalMatch.mk (MatchMetadata.mk "JWT auth" none)] ≠ []) ∧
    retrieveKnowledge
        (some [RetrievalMatch.mk
                (MatchMetadata.mk "Next.js App Router" (some "frontend-guidelines.md")),
               RetrievalMatch.mk (MatchMetadata.mk "JWT auth" none)]) =
      formattedContextSpec
        [RetrievalMatch.mk (MatchMetadata.mk "Next.js App Router" (some "frontend-guidelines.md")),
         RetrievalMatch.mk (MatchMetadata.mk "JWT auth" none)] :=
  ⟨by decide,
    c9_format_context
      [RetrievalMatch.mk (MatchMetadata.mk "Next.js App Router" (some "frontend-guidelines.md")),
       RetrievalMatch.mk (MatchMetadata.mk "JWT auth" none)] (by decide)⟩

end RagAgent
